import Mathlib

/-!
Verification of the tokenizer in `src/tokenizer.rs`.

The repository's only source file implements a lexical analyser:
`Tokenizer::build_regex_string` assembles one start-anchored alternation
`^(?:(ignore)|(p1)|...|(pn))` from an ignore pattern and an ordered list of
token types (each with an optional override pattern, else its escaped name),
`Tokenizer::next` applies it to `source[offset..]` in a loop skipping ignore
matches, and `Tokenizer::tokenize` collects tokens until end of input.

Modelling choices, in order of appearance:
* Rust `&str` is modelled as its UTF-8 byte sequence (`Str := List Nat`);
  offsets are byte offsets exactly as in the code.
* The external `regex` crate is out of scope for the repository (the spec
  treats it as "a supplied capability: compiles a pattern-matching expression
  and returns leftmost-first capturing-group results").  It is modelled
  semantically: a pattern denotes, at each suffix, the list of prefix-match
  lengths in the engine's backtracking-preference order (leftmost-first
  alternation, greedy repetition, no empty repetition step); the composite
  matcher is the list of its top-level alternatives, and `captures` picks the
  first alternative that matches, exactly the leftmost-first semantics of the
  crate for the fixed shape `^(?:(a0)|(a1)|...)`.
* The scanning loops in `next`/`tokenize` are not structurally terminating
  (a zero-width match stalls the cursor), so they take explicit fuel;
  running out of fuel is reported as `diverge`.  Rust panics (out-of-bounds
  or non-character-boundary string slicing, `.unwrap()` on `None`,
  out-of-range indexing) are reported as `panic`.
-/

set_option maxHeartbeats 1000000

namespace JE

/-- A Rust string slice, viewed as its sequence of UTF-8 bytes.
Byte values are `Nat`s (always < 256 for real text). -/
abbrev Str := List Nat

/-- The UTF-8 encoding of one unicode scalar value (standard 1-4 byte
encoding); used only to write concrete byte strings readably. -/
def charUtf8 (c : Char) : List Nat :=
  if c.toNat < 128 then [c.toNat]
  else if c.toNat < 2048 then
    [192 + c.toNat / 64, 128 + c.toNat % 64]
  else if c.toNat < 65536 then
    [224 + c.toNat / 4096, 128 + c.toNat / 64 % 64, 128 + c.toNat % 64]
  else
    [240 + c.toNat / 262144, 128 + c.toNat / 4096 % 64,
     128 + c.toNat / 64 % 64, 128 + c.toNat % 64]

/-- The UTF-8 bytes of a Lean string literal. -/
def strBytes (s : String) : Str := s.data.flatMap charUtf8

/-- Semantic model of a pattern of the underlying matching engine
(the `regex` crate, a supplied capability per the spec):
`lit l` matches exactly the byte sequence `l` (a literal, e.g. an escaped
token-type name), `cls lo hi` matches one byte in the inclusive range
(e.g. `[0-9]`), `eps` matches the empty string, `alt`/`seqp` are
alternation and concatenation, and `plus p` is greedy `p+`. -/
inductive Pat where
  | lit (l : List Nat)
  | cls (lo hi : Nat)
  | eps
  | alt (p q : Pat)
  | seqp (p q : Pat)
  | plus (p : Pat)
deriving DecidableEq

/-- Match lengths of `p*` (as used for the tail of greedy `p+`) on a suffix,
in backtracking-preference order (more iterations preferred), given the
match-length function `f` of `p`.  An iteration never consumes zero bytes
(engines do not repeat empty matches), so each step strictly shrinks the
suffix; the fuel argument is always called with at least `s.length` and
exists only to make the recursion structural. -/
def starMF (f : Str → List Nat) : Nat → Str → List Nat
  | 0, _ => [0]
  | fuel + 1, s =>
    (((f s).filter fun n => decide (0 < n ∧ n ≤ s.length)).flatMap
      fun n => (starMF f fuel (s.drop n)).map fun m => n + m) ++ [0]

/-- All prefix-match lengths of pattern `p` on suffix `s`, in the
backtracking-preference order of a leftmost-first matching engine:
the head of the list is the match the engine reports. -/
def pmatches : Pat → Str → List Nat
  | .lit l, s => if l.isPrefixOf s then [l.length] else []
  | .cls lo hi, s =>
    match s with
    | [] => []
    | c :: _ => if lo ≤ c ∧ c ≤ hi then [1] else []
  | .eps, _ => [0]
  | .alt p q, s => pmatches p s ++ pmatches q s
  | .seqp p q, s =>
    (pmatches p s).flatMap fun n => (pmatches q (s.drop n)).map fun m => n + m
  | .plus p, s =>
    (pmatches p s).flatMap fun n =>
      if n = 0 then [0]
      else (starMF (pmatches p) (s.drop n).length (s.drop n)).map fun m => n + m

/-- The compiled composite matcher `^(?:(a0)|(a1)|...)`: the ordered list of
its parenthesised top-level alternatives (index 0 is the ignore pattern).
Start-anchoring is inherent: `pmatches` only ever matches at position 0 of
the suffix it is given. -/
structure Regex where
  alts : List Pat

/-- Leftmost-first matching of the alternation: the first alternative (in
declaration order, starting at index `i`) with any match wins, and it
contributes its preferred (first) match length. -/
def capturesAux : Nat → List Pat → Str → Option (Nat × Nat)
  | _, [], _ => Option.none
  | i, p :: ps, s =>
    match (pmatches p s).head? with
    | some n => some (i, n)
    | Option.none => capturesAux (i + 1) ps s

/-- Model of `regex::Captures` for the fixed composite shape: entry 0 is the
overall match (its end, which is its length since the match is anchored at
position 0 of the suffix), entry `k + 1` is capture group `k + 1`, i.e. the
parenthesised alternative `k`, which participated (carrying the shared match
length) exactly when it is the winning alternative. -/
def capturesOf (r : Regex) (s : Str) : Option (List (Option Nat)) :=
  match capturesAux 0 r.alts s with
  | Option.none => Option.none
  | some (w, n) =>
    some (some n ::
      (List.range' 0 r.alts.length).map fun j =>
        if j = w then some n else Option.none)

/-- Helper for `index_of_not_undefined`: first position (counting from `i`)
holding a participating capture. -/
def idx_from : Nat → List (Option Nat) → Option Nat
  | _, [] => Option.none
  | i, Option.none :: rest => idx_from (i + 1) rest
  | i, some _ :: _ => some i

/-- `Tokenizer::index_of_not_undefined`: the lowest capture-group index
`≥ index` that participated in the match
(`captures.iter().enumerate().skip(index)`, first `is_some`). -/
def index_of_not_undefined (caps : List (Option Nat)) (index : Nat) : Option Nat :=
  idx_from index (caps.drop index)

/-- `Token` from `src/tokenizer.rs` (`end` is a Lean keyword, so the field is
called `stop`): a classified span of the source with byte offsets. -/
structure Token where
  token_type : Str
  value : Str
  start : Nat
  stop : Nat
deriving DecidableEq

/-- `Tokenizer`: the configured token-type names in order, plus the compiled
composite matcher. -/
structure Tokenizer where
  token_types : List Str
  regex : Regex

/-- `HashMap::get` on the overrides map, modelled as association-list lookup
(lookup by key is deterministic regardless of hash order). -/
def lookupPat (patterns : List (Str × Pat)) (t : Str) : Option Pat :=
  (patterns.find? fun x => decide (x.1 = t)).map fun x => x.2

/-- The pattern of one token type: its override if present, else its name as
a literal (the code escapes the name with `regex::escape`, which makes the
name match verbatim; semantically that is `Pat.lit`). -/
def altPat (patterns : List (Str × Pat)) (t : Str) : Pat :=
  match lookupPat patterns t with
  | some p => p
  | Option.none => .lit t

/-- `Tokenizer::new` at the semantic level: the compiled matcher's
alternatives are the ignore pattern followed by each token type's pattern in
configured order (the shape `build_regex_string` produces). -/
def Tokenizer.new (ignore : Pat) (patterns : List (Str × Pat))
    (token_types : List Str) : Tokenizer :=
  { token_types := token_types
    regex := ⟨ignore :: token_types.map (altPat patterns)⟩ }

/-- The error type of `crate::errors` as used by this file.
Modelled from the spec: the `errors` module itself is not under `src/`; the
spec says a `SyntaxError` "carries the offending offset and the remaining
unmatched text", and the code constructs it as
the format `unexpected EOF for (source) at (remaining suffix)` with
the full source and the remaining suffix as the two holes, so the model
carries those two strings. -/
inductive Error where
  | SyntaxError (source : Str) (remaining : Str)
deriving DecidableEq

/-- Result of one `Tokenizer::next` call.  `panic` models a Rust panic
(string slicing off a character boundary or past the end, `.unwrap()` on
`None`, out-of-range `Vec` indexing); `diverge` models non-termination of
the scan loop (fuel exhaustion); `none` is `Ok(None)` ("no more tokens");
`err`/`tok` are `Err(e)` / `Ok(Some(t))`. -/
inductive NextRes where
  | panic
  | diverge
  | err (e : Error)
  | none
  | tok (t : Token)
deriving DecidableEq

/-- Rust `str::is_char_boundary`, on UTF-8 bytes: position 0, the end of the
string, or any position whose byte is not a continuation byte (`0x80..0xBF`).
Slicing `&source[offset..]` panics exactly when this is false. -/
def isCharBoundary (s : Str) (i : Nat) : Bool :=
  if i = 0 then true
  else
    match s.get? i with
    | Option.none => decide (i = s.length)
    | some b => decide (¬ (128 ≤ b ∧ b < 192))

/-- `Tokenizer::next` with explicit fuel for its scan loop.  Each iteration
slices `&source[offset..]` (panicking off a boundary), applies the composite
matcher, returns `Ok(None)` on no-match-and-empty-suffix, `Err(SyntaxError)`
on no-match-with-input-left, emits a token for a non-ignore winning
alternative (`token_types[i - 2]` for capture group `i`), and loops past an
ignore match after advancing the cursor by the full match length. -/
def nextF (tk : Tokenizer) (source : Str) : Nat → Nat → NextRes
  | 0, _ => .diverge
  | fuel + 1, offset =>
    if isCharBoundary source offset then
      match capturesOf tk.regex (source.drop offset) with
      | Option.none =>
        if source.drop offset ≠ [] then
          .err (.SyntaxError source (source.drop offset))
        else .none
      | some caps =>
        match index_of_not_undefined caps 1 with
        | Option.none => .panic
        | some i =>
          match caps.head? with
          | Option.none => .panic
          | some Option.none => .panic
          | some (some m0) =>
            if i ≠ 1 then
              match caps.get? i with
              | Option.none => .panic
              | some Option.none => .panic
              | some (some mi) =>
                match tk.token_types.get? (i - 2) with
                | Option.none => .panic
                | some ty =>
                  .tok ⟨ty, (source.drop offset).take mi, offset + m0 - m0, offset + m0⟩
            else nextF tk source fuel (offset + m0)
    else .panic

/-- Result of `Tokenizer::tokenize`, with the same `panic`/`diverge`
conventions as `NextRes`. -/
inductive TokenizeRes where
  | panic
  | diverge
  | err (e : Error)
  | ok (tokens : List Token)
deriving DecidableEq

/-- `Tokenizer::tokenize` with explicit fuel: repeatedly calls `next`,
feeding each token's `end` back as the next offset, collecting tokens in
encounter order; the first error is returned alone (tokens found so far are
discarded), and `Ok(None)` ends the scan successfully. -/
def tokenizeF (tk : Tokenizer) (source : Str) : Nat → Nat → TokenizeRes
  | 0, _ => .diverge
  | fuel + 1, last_end =>
    match nextF tk source (fuel + 1) last_end with
    | .panic => .panic
    | .diverge => .diverge
    | .err e => .err e
    | .none => .ok []
    | .tok t =>
      match tokenizeF tk source fuel t.stop with
      | .ok ts => .ok (t :: ts)
      | r => r

/-- Kind of a scanned span: an internally skipped ignore match, or an
emitted token. -/
inductive SpanKind where
  | ign
  | tok
deriving DecidableEq

/-- `next` instrumented to also record, in scan order, the ignore spans it
skips (as `(SpanKind.ign, start, end)`); its second component recomputes
`nextF` step for step (see `nextI_snd`). -/
def nextI (tk : Tokenizer) (source : Str) :
    Nat → Nat → List (SpanKind × Nat × Nat) × NextRes
  | 0, _ => ([], .diverge)
  | fuel + 1, offset =>
    if isCharBoundary source offset then
      match capturesOf tk.regex (source.drop offset) with
      | Option.none =>
        if source.drop offset ≠ [] then
          ([], .err (.SyntaxError source (source.drop offset)))
        else ([], .none)
      | some caps =>
        match index_of_not_undefined caps 1 with
        | Option.none => ([], .panic)
        | some i =>
          match caps.head? with
          | Option.none => ([], .panic)
          | some Option.none => ([], .panic)
          | some (some m0) =>
            if i ≠ 1 then
              match caps.get? i with
              | Option.none => ([], .panic)
              | some Option.none => ([], .panic)
              | some (some mi) =>
                match tk.token_types.get? (i - 2) with
                | Option.none => ([], .panic)
                | some ty =>
                  ([], .tok ⟨ty, (source.drop offset).take mi,
                             offset + m0 - m0, offset + m0⟩)
            else
              ((SpanKind.ign, offset, offset + m0) ::
                 (nextI tk source fuel (offset + m0)).1,
               (nextI tk source fuel (offset + m0)).2)
    else ([], .panic)

/-- `tokenize` instrumented to record every scanned span — skipped ignore
spans and emitted token spans — in scan order; its second component
recomputes `tokenizeF` (see `tokenizeI_snd`). -/
def tokenizeI (tk : Tokenizer) (source : Str) :
    Nat → Nat → List (SpanKind × Nat × Nat) × TokenizeRes
  | 0, _ => ([], .diverge)
  | fuel + 1, last_end =>
    match (nextI tk source (fuel + 1) last_end).2 with
    | .panic => ((nextI tk source (fuel + 1) last_end).1, .panic)
    | .diverge => ((nextI tk source (fuel + 1) last_end).1, .diverge)
    | .err e => ((nextI tk source (fuel + 1) last_end).1, .err e)
    | .none => ((nextI tk source (fuel + 1) last_end).1, .ok [])
    | .tok t =>
      ((nextI tk source (fuel + 1) last_end).1 ++
         (SpanKind.tok, t.start, t.stop) :: (tokenizeI tk source fuel t.stop).1,
       match (tokenizeI tk source fuel t.stop).2 with
       | .ok ts => .ok (t :: ts)
       | r => r)

/-- `chainB a spans b` holds when the spans tile the region `[a, b)`
contiguously and in order: the first span starts at `a`, each span is
well-formed (`start ≤ end`) and starts where its predecessor ended, and the
last span ends at `b` — no gap and no overlap. -/
def chainB : Nat → List (SpanKind × Nat × Nat) → Nat → Bool
  | a, [], b => decide (a = b)
  | a, x :: rest, b =>
    decide (a = x.2.1) && decide (x.2.1 ≤ x.2.2) && chainB x.2.2 rest b

/-- `p` syntactically never matches the empty string (every match consumes
at least one byte): sufficient check used to discharge the semantic
no-zero-width-match hypotheses on concrete patterns. -/
def neverNullable : Pat → Bool
  | .lit l => decide (l ≠ [])
  | .cls _ _ => true
  | .eps => false
  | .alt p q => neverNullable p && neverNullable q
  | .seqp p q => neverNullable p || neverNullable q
  | .plus p => neverNullable p

/-- Every match of every alternative of `tk` consumes at least one byte,
i.e. the composite pattern never matches the empty string. -/
def NonEmptyMatches (tk : Tokenizer) : Prop :=
  ∀ p ∈ tk.regex.alts, ∀ s : Str, ∀ n ∈ pmatches p s, 0 < n

/-- Decidable form of the guarantee the `regex` crate gives on `&str`
haystacks: at every character-boundary position of `source` (only positions
up to the length are reachable by the scan), a match of the composite ends
on a character boundary again. -/
def matchBoundariesB (tk : Tokenizer) (source : Str) : Bool :=
  (List.range (source.length + 1)).all fun i =>
    !(isCharBoundary source i) ||
      (match capturesAux 0 tk.regex.alts (source.drop i) with
       | some (_, n) => isCharBoundary source (i + n)
       | Option.none => true)

/-! ### The string-level pattern compiler (`build_regex_string`, `new`)

`build_regex_string` is pure string assembly and is embedded verbatim over
Lean `String`s.  Compiling the assembled string with `regex::Regex::new` is
external; only its success/failure is relevant (to claim C1), and for that a
minimal notion of syntactic validity is used. -/

/-- `regex::escape` on one character: regex-meta characters get a preceding
backslash (the meta set of `regex_syntax::is_meta_character`). -/
def regexEscapeChar (c : Char) : List Char :=
  if c ∈ ['\\', '.', '+', '*', '?', '(', ')', '|', '[', ']',
          '\x7b', '\x7d', '^', '$', '#', '&', '-', '~'] then
    ['\\', c]
  else [c]

/-- `regex::escape`: escape every pattern-special character of `s`. -/
def regexEscape (s : String) : String := ⟨s.data.flatMap regexEscapeChar⟩

/-- `HashMap::get` on the string-level overrides map. -/
def lookupStr (patterns : List (String × String)) (t : String) : Option String :=
  (patterns.find? fun x => decide (x.1 = t)).map fun x => x.2

/-- `Tokenizer::build_regex_string`: starting from `^(?:`, append the
parenthesised ignore pattern, then `|(p)` for each token type in order
(override if present, else the escaped name), then the closing `)`.
The Rust function returns `Result<String, std::fmt::Error>`; `write!` into a
`String` never fails, so the model returns the string directly. -/
def build_regex_string (ignore : String) (patterns : List (String × String))
    (token_types : List String) : String :=
  token_types.foldl
    (fun acc t =>
      match lookupStr patterns t with
      | some p => acc ++ "|(" ++ p ++ ")"
      | Option.none => acc ++ "|(" ++ regexEscape t ++ ")")
    ("^(?:" ++ "(" ++ ignore ++ ")") ++ ")"

/-- Modelled from the spec: whether the assembled expression "is a
syntactically valid pattern in the underlying matching language".  The
matching engine is external (a supplied capability), so validity is modelled
by one necessary syntactic condition — unescaped parentheses must balance —
which is all the concrete exhibits need (e.g. the pattern `(` is invalid). -/
def parenOk : List Char → Nat → Bool
  | [], d => decide (d = 0)
  | '\\' :: _ :: rest, d => parenOk rest d
  | '(' :: rest, d => parenOk rest (d + 1)
  | ')' :: rest, d =>
    match d with
    | 0 => false
    | e + 1 => parenOk rest e
  | _ :: rest, d => parenOk rest d

/-- Result of string-level construction: `Tokenizer::new` has return type
`Tokenizer` (not `Result`), so a failed pattern compilation can only
surface as the panic of `.unwrap()`, modelled as `panic`. -/
inductive NewRes where
  | panic
  | ok (token_types : List String) (re : String)
deriving DecidableEq

/-- `Tokenizer::new` at the string level: assemble the composite expression
(`build_regex_string(...).unwrap()` — infallible), then compile it with
`regex::Regex::new(&re).unwrap()`, which panics (aborts) when the pattern is
not syntactically valid. -/
def STokenizer.new (ignore : String) (patterns : List (String × String))
    (token_types : List String) : NewRes :=
  if parenOk (build_regex_string ignore patterns token_types).data 0 then
    .ok token_types (build_regex_string ignore patterns token_types)
  else .panic

/-! ### Concrete instances

The tokenizer of the repository's own test suite (`build_tokenizer` in
`src/tokenizer.rs`): token types, in order, `number = [0-9]+`,
`identifier = [a-z]+`, the literal `+`, `snowman = ☃`; ignore `[ ]+`. -/

/-- The test-suite tokenizer at the semantic level. -/
def exTokenizer : Tokenizer :=
  Tokenizer.new (.plus (.cls 32 32))
    [(strBytes "number", .plus (.cls 48 57)),
     (strBytes "identifier", .plus (.cls 97 122)),
     (strBytes "snowman", .lit (strBytes "☃"))]
    [strBytes "number", strBytes "identifier", strBytes "+", strBytes "snowman"]

/-- A tokenizer whose ignore pattern matches the empty string (zero-width):
used to exhibit non-termination of the scan loop. -/
def zwTokenizer : Tokenizer := Tokenizer.new .eps [] []

/-- Tokenizer for the precedence exhibit: type `id = [a-z]+` declared before
the literal type `ab`; both match at an `ab...` suffix. -/
def precTokenizer : Tokenizer :=
  Tokenizer.new (.cls 32 32)
    [(strBytes "id", .plus (.cls 97 122))]
    [strBytes "id", strBytes "ab"]

/-! ### Basic lemmas about pattern matching -/

theorem starMF_le (f : Str → List Nat) :
    ∀ fuel s, ∀ m ∈ starMF f fuel s, m ≤ s.length := by
  intro fuel
  induction fuel with
  | zero =>
    intro s m hm
    simp only [starMF, List.mem_singleton] at hm
    simp [hm]
  | succ fuel ih =>
    intro s m hm
    simp only [starMF, List.mem_append, List.mem_flatMap, List.mem_filter,
      List.mem_map, List.mem_singleton] at hm
    rcases hm with ⟨n, ⟨hnf, hcond⟩, m', hm', rfl⟩ | rfl
    · have hc := of_decide_eq_true hcond
      have h2 := ih (s.drop n) m' hm'
      have : (s.drop n).length = s.length - n := List.length_drop n s
      omega
    · exact Nat.zero_le _

theorem pmatches_le : ∀ (p : Pat) (s : Str), ∀ n ∈ pmatches p s, n ≤ s.length := by
  intro p
  induction p with
  | lit l =>
    intro s n hn
    simp only [pmatches] at hn
    split at hn
    · rename_i hpre
      simp only [List.mem_singleton] at hn
      subst hn
      exact (List.isPrefixOf_iff_prefix.mp hpre).length_le
    · simp at hn
  | cls lo hi =>
    intro s n hn
    match s with
    | [] => simp [pmatches] at hn
    | c :: rest =>
      simp only [pmatches] at hn
      split at hn
      · simp only [List.mem_singleton] at hn
        simp [hn]
      · simp at hn
  | eps =>
    intro s n hn
    simp only [pmatches, List.mem_singleton] at hn
    simp [hn]
  | alt p q ihp ihq =>
    intro s n hn
    simp only [pmatches, List.mem_append] at hn
    rcases hn with h | h
    · exact ihp s n h
    · exact ihq s n h
  | seqp p q ihp ihq =>
    intro s n hn
    simp only [pmatches, List.mem_flatMap, List.mem_map] at hn
    rcases hn with ⟨a, ha, b, hb, rfl⟩
    have h1 := ihp s a ha
    have h2 := ihq (s.drop a) b hb
    have : (s.drop a).length = s.length - a := List.length_drop a s
    omega
  | plus p ihp =>
    intro s n hn
    simp only [pmatches, List.mem_flatMap] at hn
    rcases hn with ⟨a, ha, hmem⟩
    have h1 := ihp s a ha
    split at hmem
    · simp only [List.mem_singleton] at hmem
      simp [hmem]
    · simp only [List.mem_map] at hmem
      rcases hmem with ⟨m, hm, rfl⟩
      have h2 := starMF_le (pmatches p) (s.drop a).length (s.drop a) m hm
      have : (s.drop a).length = s.length - a := List.length_drop a s
      omega

theorem neverNullable_sound :
    ∀ (p : Pat), neverNullable p = true →
      ∀ s : Str, ∀ n ∈ pmatches p s, 0 < n := by
  intro p
  induction p with
  | lit l =>
    intro h s n hn
    simp only [neverNullable, decide_eq_true_eq] at h
    simp only [pmatches] at hn
    split at hn
    · simp only [List.mem_singleton] at hn
      subst hn
      exact List.length_pos.mpr h
    · simp at hn
  | cls lo hi =>
    intro _ s n hn
    match s with
    | [] => simp [pmatches] at hn
    | c :: rest =>
      simp only [pmatches] at hn
      split at hn
      · simp only [List.mem_singleton] at hn
        simp [hn]
      · simp at hn
  | eps =>
    intro h
    simp [neverNullable] at h
  | alt p q ihp ihq =>
    intro h s n hn
    simp only [neverNullable, Bool.and_eq_true] at h
    simp only [pmatches, List.mem_append] at hn
    rcases hn with hm | hm
    · exact ihp h.1 s n hm
    · exact ihq h.2 s n hm
  | seqp p q ihp ihq =>
    intro h s n hn
    simp only [neverNullable, Bool.or_eq_true] at h
    simp only [pmatches, List.mem_flatMap, List.mem_map] at hn
    rcases hn with ⟨a, ha, b, hb, rfl⟩
    rcases h with h | h
    · have := ihp h s a ha
      omega
    · have := ihq h (s.drop a) b hb
      omega
  | plus p ihp =>
    intro h s n hn
    simp only [neverNullable] at h
    simp only [pmatches, List.mem_flatMap] at hn
    rcases hn with ⟨a, ha, hmem⟩
    have h1 := ihp h s a ha
    split at hmem
    · omega
    · simp only [List.mem_map] at hmem
      rcases hmem with ⟨m, _, rfl⟩
      omega

/-! ### Characterisation of `capturesAux`, `capturesOf`,
`index_of_not_undefined` -/

theorem capturesAux_eq_none (i : Nat) (ps : List Pat) (s : Str) :
    capturesAux i ps s = Option.none ↔ ∀ p ∈ ps, pmatches p s = [] := by
  induction ps generalizing i with
  | nil => simp [capturesAux]
  | cons p rest ih =>
    simp only [capturesAux]
    cases h : (pmatches p s).head? with
    | none =>
      have hp : pmatches p s = [] := List.head?_eq_none_iff.mp h
      simp only [ih]
      constructor
      · intro hall q hq
        rcases List.mem_cons.mp hq with rfl | hq'
        · exact hp
        · exact hall q hq'
      · intro hall q hq
        exact hall q (List.mem_cons_of_mem p hq)
    | some n =>
      have hp : pmatches p s ≠ [] := by
        intro hc
        rw [hc] at h
        simp at h
      constructor
      · intro h'
        exact absurd h' (by simp)
      · intro hall
        exact absurd (hall p (List.mem_cons_self p rest)) hp

theorem capturesAux_some_spec :
    ∀ (ps : List Pat) (i w n : Nat) (s : Str),
      capturesAux i ps s = some (w, n) →
      i ≤ w ∧ w - i < ps.length ∧
        ∃ p, ps.get? (w - i) = some p ∧ (pmatches p s).head? = some n ∧
          ∀ j q, j < w - i → ps.get? j = some q → pmatches q s = [] := by
  intro ps
  induction ps with
  | nil =>
    intro i w n s h
    simp [capturesAux] at h
  | cons p rest ih =>
    intro i w n s h
    simp only [capturesAux] at h
    cases hh : (pmatches p s).head? with
    | some m =>
      rw [hh] at h
      have h1 : i = w ∧ m = n := by
        have := Option.some.inj h
        exact ⟨congrArg Prod.fst this, congrArg Prod.snd this⟩
      obtain ⟨rfl, rfl⟩ := h1
      refine ⟨Nat.le_refl _, by simp, p, by simp, hh, ?_⟩
      intro j q hj
      omega
    | none =>
      rw [hh] at h
      obtain ⟨h1, h2, q, hq, hhead, hmin⟩ := ih (i + 1) w n s h
      have hwi : w - i = (w - (i + 1)) + 1 := by omega
      refine ⟨by omega, by simp; omega, q, ?_, hhead, ?_⟩
      · rw [hwi]
        simpa using hq
      · intro j q' hj hjq
        match j with
        | 0 =>
          have hpq : p = q' := by simpa using hjq
          rw [← hpq]
          exact List.head?_eq_none_iff.mp hh
        | j' + 1 =>
          exact hmin j' q' (by omega) (by simpa using hjq)

theorem capturesAux_some_of_mem :
    ∀ (ps : List Pat) (i j : Nat) (p : Pat) (s : Str),
      ps.get? j = some p → pmatches p s ≠ [] →
      ∃ w n, capturesAux i ps s = some (w, n) ∧ w ≤ i + j := by
  intro ps
  induction ps with
  | nil =>
    intro i j p s h
    simp at h
  | cons q rest ih =>
    intro i j p s hget hne
    simp only [capturesAux]
    cases hh : (pmatches q s).head? with
    | some m => exact ⟨i, m, rfl, by omega⟩
    | none =>
      have hq : pmatches q s = [] := List.head?_eq_none_iff.mp hh
      match j with
      | 0 =>
        have hh2 : q = p := by simpa using hget
        rw [hh2] at hq
        exact absurd hq hne
      | j' + 1 =>
        obtain ⟨w, n, hc, hw⟩ := ih (i + 1) j' p s (by simpa using hget) hne
        exact ⟨w, n, hc, by omega⟩

theorem range'_map_get? (f : Nat → Option Nat) :
    ∀ (L a w : Nat), w < L →
      ((List.range' a L).map f).get? w = some (f (a + w)) := by
  intro L
  induction L with
  | zero =>
    intro a w h
    omega
  | succ L ih =>
    intro a w h
    rw [show List.range' a (L + 1) = a :: List.range' (a + 1) L from rfl,
        List.map_cons]
    match w with
    | 0 => simp
    | w' + 1 =>
      rw [List.get?_cons_succ]
      rw [ih (a + 1) w' (by omega)]
      congr 1
      congr 1
      omega

theorem idx_from_spec (f : Nat → Option Nat) (w n : Nat)
    (hf : ∀ j, f j = if j = w then some n else Option.none) :
    ∀ (L a s : Nat), a ≤ w → w < a + L →
      idx_from s ((List.range' a L).map f) = some (s + (w - a)) := by
  intro L
  induction L with
  | zero =>
    intro a s h1 h2
    omega
  | succ L ih =>
    intro a s h1 h2
    rw [show List.range' a (L + 1) = a :: List.range' (a + 1) L from rfl,
        List.map_cons]
    by_cases ha : a = w
    · subst ha
      rw [hf a]
      simp [idx_from]
    · rw [hf a]
      simp only [if_neg ha, idx_from]
      rw [ih (a + 1) (s + 1) (by omega) (by omega)]
      congr 1
      omega

theorem capturesOf_spec (r : Regex) (s : Str) (w n : Nat)
    (h : capturesAux 0 r.alts s = some (w, n)) :
    ∃ caps, capturesOf r s = some caps ∧
      caps.head? = some (some n) ∧
      index_of_not_undefined caps 1 = some (w + 1) ∧
      caps.get? (w + 1) = some (some n) := by
  have hw : w < r.alts.length := by
    have := capturesAux_some_spec r.alts 0 w n s h
    omega
  refine ⟨some n :: (List.range' 0 r.alts.length).map
      (fun j => if j = w then some n else Option.none), ?_, rfl, ?_, ?_⟩
  · simp [capturesOf, h]
  · show idx_from 1 ((some n ::
      (List.range' 0 r.alts.length).map fun j =>
        if j = w then some n else Option.none).drop 1) = some (w + 1)
    rw [List.drop_one, List.tail_cons]
    rw [idx_from_spec (fun j => if j = w then some n else Option.none) w n
      (fun _ => rfl) r.alts.length 0 1 (Nat.zero_le w) (by omega)]
    congr 1
    omega
  · rw [List.get?_cons_succ]
    rw [range'_map_get? (fun j => if j = w then some n else Option.none)
      r.alts.length 0 w hw]
    simp

/-! ### One-iteration behaviour of `next` -/

theorem capturesOf_eq_none (r : Regex) (s : Str)
    (h : capturesAux 0 r.alts s = Option.none) :
    capturesOf r s = Option.none := by
  simp [capturesOf, h]

theorem nextF_step_nomatch (tk : Tokenizer) (source : Str) (fuel offset : Nat)
    (hb : isCharBoundary source offset = true)
    (hc : capturesAux 0 tk.regex.alts (source.drop offset) = Option.none) :
    nextF tk source (fuel + 1) offset =
      if source.drop offset ≠ [] then
        .err (.SyntaxError source (source.drop offset))
      else .none := by
  simp only [nextF, hb, if_true, capturesOf_eq_none tk.regex _ hc]

theorem nextF_step_ign (tk : Tokenizer) (source : Str) (fuel offset n : Nat)
    (hb : isCharBoundary source offset = true)
    (hc : capturesAux 0 tk.regex.alts (source.drop offset) = some (0, n)) :
    nextF tk source (fuel + 1) offset = nextF tk source fuel (offset + n) := by
  obtain ⟨caps, hcaps, hhead, hidx, _⟩ := capturesOf_spec tk.regex _ 0 n hc
  simp only [nextF, hb, if_true, hcaps, hidx, hhead]
  simp

theorem nextF_step_tok (tk : Tokenizer) (source : Str)
    (fuel offset w n : Nat) (ty : Str)
    (hb : isCharBoundary source offset = true)
    (hc : capturesAux 0 tk.regex.alts (source.drop offset) = some (w, n))
    (hw : 1 ≤ w)
    (hty : tk.token_types.get? (w - 1) = some ty) :
    nextF tk source (fuel + 1) offset =
      .tok ⟨ty, (source.drop offset).take n, offset, offset + n⟩ := by
  obtain ⟨caps, hcaps, hhead, hidx, hget⟩ := capturesOf_spec tk.regex _ w n hc
  simp only [nextF, hb, if_true, hcaps, hidx, hhead]
  have h1 : ¬ (w + 1 = 1) := by omega
  simp only [ne_eq, h1, not_false_eq_true, if_true, hget]
  have h2 : w + 1 - 2 = w - 1 := by omega
  rw [h2, hty]
  simp

theorem nextI_step_nomatch (tk : Tokenizer) (source : Str) (fuel offset : Nat)
    (hb : isCharBoundary source offset = true)
    (hc : capturesAux 0 tk.regex.alts (source.drop offset) = Option.none) :
    nextI tk source (fuel + 1) offset =
      ([], if source.drop offset ≠ [] then
        .err (.SyntaxError source (source.drop offset))
      else .none) := by
  simp only [nextI, hb, if_true, capturesOf_eq_none tk.regex _ hc]
  split <;> rfl

theorem nextI_step_ign (tk : Tokenizer) (source : Str) (fuel offset n : Nat)
    (hb : isCharBoundary source offset = true)
    (hc : capturesAux 0 tk.regex.alts (source.drop offset) = some (0, n)) :
    nextI tk source (fuel + 1) offset =
      ((SpanKind.ign, offset, offset + n) ::
         (nextI tk source fuel (offset + n)).1,
       (nextI tk source fuel (offset + n)).2) := by
  obtain ⟨caps, hcaps, hhead, hidx, _⟩ := capturesOf_spec tk.regex _ 0 n hc
  simp only [nextI, hb, if_true, hcaps, hidx, hhead]
  simp

theorem nextI_step_tok (tk : Tokenizer) (source : Str)
    (fuel offset w n : Nat) (ty : Str)
    (hb : isCharBoundary source offset = true)
    (hc : capturesAux 0 tk.regex.alts (source.drop offset) = some (w, n))
    (hw : 1 ≤ w)
    (hty : tk.token_types.get? (w - 1) = some ty) :
    nextI tk source (fuel + 1) offset =
      ([], .tok ⟨ty, (source.drop offset).take n, offset, offset + n⟩) := by
  obtain ⟨caps, hcaps, hhead, hidx, hget⟩ := capturesOf_spec tk.regex _ w n hc
  simp only [nextI, hb, if_true, hcaps, hidx, hhead]
  have h1 : ¬ (w + 1 = 1) := by omega
  simp only [ne_eq, h1, not_false_eq_true, if_true, hget]
  have h2 : w + 1 - 2 = w - 1 := by omega
  rw [h2, hty]
  simp

theorem head?_mem {α : Type} {l : List α} {a : α} (h : l.head? = some a) :
    a ∈ l := by
  cases l with
  | nil => simp at h
  | cons x xs =>
    simp only [List.head?_cons, Option.some.injEq] at h
    rw [← h]
    exact List.mem_cons_self x xs

theorem isCharBoundary_le (s : Str) (i : Nat)
    (h : isCharBoundary s i = true) : i ≤ s.length := by
  unfold isCharBoundary at h
  split at h
  · omega
  · split at h
    · rename_i hget
      rw [decide_eq_true_eq] at h
      omega
    · rename_i b hget
      obtain ⟨hlt, _⟩ := List.get?_eq_some.mp hget
      omega

theorem capturesAux_nil_none (tk : Tokenizer) (hne : NonEmptyMatches tk) :
    capturesAux 0 tk.regex.alts [] = Option.none := by
  rw [capturesAux_eq_none]
  intro p hp
  by_contra hcne
  obtain ⟨n, hn⟩ := List.exists_mem_of_ne_nil _ hcne
  have h1 := pmatches_le p [] n hn
  have h2 := hne p hp [] n hn
  simp at h1
  omega

theorem matchBoundariesB_spec (tk : Tokenizer) (source : Str)
    (h : matchBoundariesB tk source = true) (i w n : Nat)
    (hb : isCharBoundary source i = true) (hi : i ≤ source.length)
    (hc : capturesAux 0 tk.regex.alts (source.drop i) = some (w, n)) :
    isCharBoundary source (i + n) = true := by
  unfold matchBoundariesB at h
  rw [List.all_eq_true] at h
  have := h i (List.mem_range.mpr (by omega))
  simp only [hb, hc, Bool.not_true, Bool.false_or] at this
  exact this

theorem nextF_step_oob (tk : Tokenizer) (source : Str)
    (fuel offset w n : Nat)
    (hb : isCharBoundary source offset = true)
    (hc : capturesAux 0 tk.regex.alts (source.drop offset) = some (w, n))
    (hw : 1 ≤ w)
    (hty : tk.token_types.get? (w - 1) = Option.none) :
    nextF tk source (fuel + 1) offset = .panic := by
  obtain ⟨caps, hcaps, hhead, hidx, hget⟩ := capturesOf_spec tk.regex _ w n hc
  simp only [nextF, hb, if_true, hcaps, hidx, hhead]
  have h1 : ¬ (w + 1 = 1) := by omega
  simp only [ne_eq, h1, not_false_eq_true, if_true, hget]
  rw [show w + 1 - 2 = w - 1 from by omega, hty]

theorem nextI_step_oob (tk : Tokenizer) (source : Str)
    (fuel offset w n : Nat)
    (hb : isCharBoundary source offset = true)
    (hc : capturesAux 0 tk.regex.alts (source.drop offset) = some (w, n))
    (hw : 1 ≤ w)
    (hty : tk.token_types.get? (w - 1) = Option.none) :
    nextI tk source (fuel + 1) offset = ([], .panic) := by
  obtain ⟨caps, hcaps, hhead, hidx, hget⟩ := capturesOf_spec tk.regex _ w n hc
  simp only [nextI, hb, if_true, hcaps, hidx, hhead]
  have h1 : ¬ (w + 1 = 1) := by omega
  simp only [ne_eq, h1, not_false_eq_true, if_true, hget]
  rw [show w + 1 - 2 = w - 1 from by omega, hty]

theorem nextF_boundary_false (tk : Tokenizer) (source : Str)
    (fuel offset : Nat) (hb : ¬ isCharBoundary source offset = true) :
    nextF tk source (fuel + 1) offset = .panic := by
  simp only [nextF]
  rw [if_neg (by simpa using hb)]

/-- What it takes for `next` to return a token: the cursor advanced from
`offset` to the token's `start` (skipping ignore matches), the token's start
is a character boundary, some alternative `w ≥ 1` (a token type, not the
ignore pattern) won the leftmost-first match there with length `n`, the
token is classified as token type `w - 1`, its value is the first `n` bytes
of the suffix, and its end is `start + n`. -/
theorem nextF_tok_spec (tk : Tokenizer) (source : Str) :
    ∀ (fuel offset : Nat) (t : Token),
      nextF tk source fuel offset = .tok t →
      offset ≤ t.start ∧ isCharBoundary source t.start = true ∧
        ∃ w n, 1 ≤ w ∧
          capturesAux 0 tk.regex.alts (source.drop t.start) = some (w, n) ∧
          tk.token_types.get? (w - 1) = some t.token_type ∧
          t.value = (source.drop t.start).take n ∧
          t.stop = t.start + n := by
  intro fuel
  induction fuel with
  | zero =>
    intro offset t h
    simp [nextF] at h
  | succ fuel ih =>
    intro offset t h
    by_cases hb : isCharBoundary source offset = true
    case neg =>
      rw [nextF_boundary_false tk source fuel offset hb] at h
      simp at h
    case pos =>
      cases hc : capturesAux 0 tk.regex.alts (source.drop offset) with
      | none =>
        rw [nextF_step_nomatch tk source fuel offset hb hc] at h
        split at h <;> simp at h
      | some wn =>
        obtain ⟨w, n⟩ := wn
        match w with
        | 0 =>
          rw [nextF_step_ign tk source fuel offset n hb hc] at h
          have := ih (offset + n) t h
          exact ⟨by omega, this.2⟩
        | w' + 1 =>
          cases hty : tk.token_types.get? (w' + 1 - 1) with
          | none =>
            rw [nextF_step_oob tk source fuel offset (w' + 1) n hb hc
              (by omega) hty] at h
            simp at h
          | some ty =>
            rw [nextF_step_tok tk source fuel offset (w' + 1) n ty hb hc
              (by omega) hty] at h
            have heq := NextRes.tok.inj h
            subst heq
            exact ⟨Nat.le_refl _, hb, w' + 1, n, by omega, hc, hty, rfl, rfl⟩

/-- The instrumented single-step scan computes exactly `nextF`. -/
theorem nextI_snd (tk : Tokenizer) (source : Str) :
    ∀ (fuel offset : Nat),
      (nextI tk source fuel offset).2 = nextF tk source fuel offset := by
  intro fuel
  induction fuel with
  | zero =>
    intro offset
    rfl
  | succ fuel ih =>
    intro offset
    by_cases hb : isCharBoundary source offset = true
    case neg =>
      rw [nextF_boundary_false tk source fuel offset hb]
      simp only [nextI]
      rw [if_neg (by simpa using hb)]
    case pos =>
      cases hc : capturesAux 0 tk.regex.alts (source.drop offset) with
      | none =>
        rw [nextF_step_nomatch tk source fuel offset hb hc,
            nextI_step_nomatch tk source fuel offset hb hc]
      | some wn =>
        obtain ⟨w, n⟩ := wn
        match w with
        | 0 =>
          rw [nextF_step_ign tk source fuel offset n hb hc,
              nextI_step_ign tk source fuel offset n hb hc]
          exact ih (offset + n)
        | w' + 1 =>
          cases hty : tk.token_types.get? (w' + 1 - 1) with
          | none =>
            rw [nextF_step_oob tk source fuel offset (w' + 1) n hb hc
                  (by omega) hty,
                nextI_step_oob tk source fuel offset (w' + 1) n hb hc
                  (by omega) hty]
          | some ty =>
            rw [nextF_step_tok tk source fuel offset (w' + 1) n ty hb hc
                  (by omega) hty,
                nextI_step_tok tk source fuel offset (w' + 1) n ty hb hc
                  (by omega) hty]

/-- The instrumented full scan computes exactly `tokenizeF`. -/
theorem tokenizeI_snd (tk : Tokenizer) (source : Str) :
    ∀ (fuel offset : Nat),
      (tokenizeI tk source fuel offset).2 = tokenizeF tk source fuel offset := by
  intro fuel
  induction fuel with
  | zero =>
    intro offset
    rfl
  | succ fuel ih =>
    intro offset
    simp only [tokenizeI, tokenizeF, nextI_snd tk source (fuel + 1) offset]
    cases nextF tk source (fuel + 1) offset with
    | panic => rfl
    | diverge => rfl
    | err e => rfl
    | none => rfl
    | tok t =>
      simp only
      rw [ih t.stop]

/-- Spans recorded by the instrumented single-step scan: all are ignore
spans (each one an ignore-winning match of the composite at its own start
offset), and they tile the region from the call's offset up to the emitted
token's start (when a token is returned) or up to the end of the source
(when the scan ends successfully). -/
theorem nextI_spans_spec (tk : Tokenizer) (source : Str) :
    ∀ (fuel offset : Nat),
      (∀ x ∈ (nextI tk source fuel offset).1,
         x.1 = SpanKind.ign ∧
         capturesAux 0 tk.regex.alts (source.drop x.2.1) =
           some (0, x.2.2 - x.2.1) ∧
         x.2.1 ≤ x.2.2) ∧
      (∀ t : Token, (nextI tk source fuel offset).2 = .tok t →
         chainB offset (nextI tk source fuel offset).1 t.start = true ∧
         t.start ≤ t.stop) ∧
      ((nextI tk source fuel offset).2 = .none →
         chainB offset (nextI tk source fuel offset).1 source.length = true) := by
  intro fuel
  induction fuel with
  | zero =>
    intro offset
    refine ⟨by simp [nextI], by simp [nextI], by simp [nextI]⟩
  | succ fuel ih =>
    intro offset
    by_cases hb : isCharBoundary source offset = true
    case neg =>
      have hI : nextI tk source (fuel + 1) offset = ([], .panic) := by
        simp only [nextI]
        rw [if_neg (by simpa using hb)]
      rw [hI]
      refine ⟨by simp, by simp, by simp⟩
    case pos =>
      cases hc : capturesAux 0 tk.regex.alts (source.drop offset) with
      | none =>
        rw [nextI_step_nomatch tk source fuel offset hb hc]
        by_cases hemp : source.drop offset = []
        · have hoff : offset = source.length := by
            have h1 := isCharBoundary_le source offset hb
            have h2 : source.length - offset = 0 := by
              rw [← List.length_drop, hemp]
              rfl
            omega
          rw [if_neg (by simpa using hemp)]
          refine ⟨by simp, by simp, ?_⟩
          intro _
          simp [chainB, hoff]
        · rw [if_pos (by simpa using hemp)]
          refine ⟨by simp, by simp, by simp⟩
      | some wn =>
        obtain ⟨w, n⟩ := wn
        match w with
        | 0 =>
          rw [nextI_step_ign tk source fuel offset n hb hc]
          obtain ⟨ih1, ih2, ih3⟩ := ih (offset + n)
          refine ⟨?_, ?_, ?_⟩
          · intro x hx
            rcases List.mem_cons.mp hx with rfl | hx'
            · refine ⟨rfl, ?_, by simp⟩
              simpa using hc
            · exact ih1 x hx'
          · intro t ht
            obtain ⟨hchain, hse⟩ := ih2 t ht
            refine ⟨?_, hse⟩
            simp only [chainB]
            simp [hchain]
          · intro ht
            have hchain := ih3 ht
            simp only [chainB]
            simp [hchain]
        | w' + 1 =>
          cases hty : tk.token_types.get? (w' + 1 - 1) with
          | none =>
            rw [nextI_step_oob tk source fuel offset (w' + 1) n hb hc
              (by omega) hty]
            refine ⟨by simp, by simp, by simp⟩
          | some ty =>
            rw [nextI_step_tok tk source fuel offset (w' + 1) n ty hb hc
              (by omega) hty]
            refine ⟨by simp, ?_, by simp⟩
            intro t ht
            simp only at ht
            have heq := NextRes.tok.inj ht
            rw [← heq]
            refine ⟨by simp [chainB], by simp⟩

theorem chainB_append :
    ∀ (l1 : List (SpanKind × Nat × Nat)) (a b c : Nat)
      (l2 : List (SpanKind × Nat × Nat)),
      chainB a l1 b = true → chainB b l2 c = true →
      chainB a (l1 ++ l2) c = true := by
  intro l1
  induction l1 with
  | nil =>
    intro a b c l2 h1 h2
    simp only [chainB, decide_eq_true_eq] at h1
    subst h1
    simpa using h2
  | cons x rest ih =>
    intro a b c l2 h1 h2
    simp only [chainB, Bool.and_eq_true] at h1
    obtain ⟨⟨hax, hxe⟩, hrest⟩ := h1
    simp only [List.cons_append, chainB, Bool.and_eq_true]
    exact ⟨⟨hax, hxe⟩, ih _ _ _ _ hrest h2⟩

/-- Spans recorded by the instrumented full scan, when it succeeds: they
tile `[offset, source.length)` contiguously, the token spans among them (in
order) are exactly the spans of the returned tokens, and every ignore span
is an ignore-winning match of the composite at its own start offset. -/
theorem tokenizeI_ok_spec (tk : Tokenizer) (source : Str) :
    ∀ (fuel offset : Nat) (ts : List Token),
      (tokenizeI tk source fuel offset).2 = .ok ts →
      chainB offset (tokenizeI tk source fuel offset).1 source.length = true ∧
      ((tokenizeI tk source fuel offset).1.filter
          fun x => decide (x.1 = SpanKind.tok)) =
        ts.map (fun t => (SpanKind.tok, t.start, t.stop)) ∧
      (∀ x ∈ (tokenizeI tk source fuel offset).1, x.1 = SpanKind.ign →
        capturesAux 0 tk.regex.alts (source.drop x.2.1) =
          some (0, x.2.2 - x.2.1)) := by
  intro fuel
  induction fuel with
  | zero =>
    intro offset ts h
    simp [tokenizeI] at h
  | succ fuel ih =>
    intro offset ts h
    obtain ⟨sp1, sp2, sp3⟩ := nextI_spans_spec tk source (fuel + 1) offset
    cases hr : (nextI tk source (fuel + 1) offset).2 with
    | panic =>
      have hT : tokenizeI tk source (fuel + 1) offset =
          ((nextI tk source (fuel + 1) offset).1, .panic) := by
        simp only [tokenizeI, hr]
      rw [hT] at h
      simp at h
    | diverge =>
      have hT : tokenizeI tk source (fuel + 1) offset =
          ((nextI tk source (fuel + 1) offset).1, .diverge) := by
        simp only [tokenizeI, hr]
      rw [hT] at h
      simp at h
    | err e =>
      have hT : tokenizeI tk source (fuel + 1) offset =
          ((nextI tk source (fuel + 1) offset).1, .err e) := by
        simp only [tokenizeI, hr]
      rw [hT] at h
      simp at h
    | none =>
      have hT : tokenizeI tk source (fuel + 1) offset =
          ((nextI tk source (fuel + 1) offset).1, .ok []) := by
        simp only [tokenizeI, hr]
      rw [hT] at h ⊢
      have hts : ts = [] := by
        have := TokenizeRes.ok.inj h
        exact this.symm
      subst hts
      refine ⟨by simpa using sp3 hr, ?_, ?_⟩
      · simp only [List.map_nil]
        rw [List.filter_eq_nil_iff]
        intro x hx
        have := (sp1 x hx).1
        simp [this]
      · intro x hx _
        exact ((sp1 x hx).2).1
    | tok t =>
      obtain ⟨hchain1, hst⟩ := sp2 t hr
      cases hr2 : (tokenizeF tk source fuel t.stop) with
      | ok ts' =>
        have hr2' : (tokenizeI tk source fuel t.stop).2 = .ok ts' := by
          rw [tokenizeI_snd]
          exact hr2
        have hT : tokenizeI tk source (fuel + 1) offset =
            ((nextI tk source (fuel + 1) offset).1 ++
               (SpanKind.tok, t.start, t.stop) ::
                 (tokenizeI tk source fuel t.stop).1,
             .ok (t :: ts')) := by
          simp only [tokenizeI, hr]
          rw [show (tokenizeI tk source fuel t.stop).2 = .ok ts' from hr2']
        rw [hT] at h ⊢
        have hts : ts = t :: ts' := by
          have := TokenizeRes.ok.inj h
          exact this.symm
        subst hts
        obtain ⟨ihc, ihf, ihg⟩ := ih t.stop ts' hr2'
        refine ⟨?_, ?_, ?_⟩
        · apply chainB_append _ offset t.start source.length _ hchain1
          simp only [chainB]
          simp [hst, ihc]
        · rw [List.filter_append]
          have hfilt : ((nextI tk source (fuel + 1) offset).1.filter
              fun x => decide (x.1 = SpanKind.tok)) = [] := by
            rw [List.filter_eq_nil_iff]
            intro x hx
            have := (sp1 x hx).1
            simp [this]
          rw [hfilt]
          simp only [List.nil_append, List.filter_cons, List.map_cons]
          simp [ihf]
        · intro x hx hxi
          rcases List.mem_append.mp hx with hx1 | hx2
          · exact ((sp1 x hx1).2).1
          · rcases List.mem_cons.mp hx2 with rfl | hx3
            · simp at hxi
            · exact ihg x hx3 hxi
      | panic =>
        have hr2' : (tokenizeI tk source fuel t.stop).2 = .panic := by
          rw [tokenizeI_snd]; exact hr2
        have hT : (tokenizeI tk source (fuel + 1) offset).2 = .panic := by
          simp only [tokenizeI, hr]
          rw [hr2']
        rw [hT] at h
        simp at h
      | diverge =>
        have hr2' : (tokenizeI tk source fuel t.stop).2 = .diverge := by
          rw [tokenizeI_snd]; exact hr2
        have hT : (tokenizeI tk source (fuel + 1) offset).2 = .diverge := by
          simp only [tokenizeI, hr]
          rw [hr2']
        rw [hT] at h
        simp at h
      | err e =>
        have hr2' : (tokenizeI tk source fuel t.stop).2 = .err e := by
          rw [tokenizeI_snd]; exact hr2
        have hT : (tokenizeI tk source (fuel + 1) offset).2 = .err e := by
          simp only [tokenizeI, hr]
          rw [hr2']
        rw [hT] at h
        simp at h

/-- From a winning alternative `(w, n)` of the composite, extract the facts
implied about the match length: the winning pattern is one of the
alternatives and `n` is one of its match lengths (so matcher-level
hypotheses about match lengths apply to `n`). -/
theorem capturesAux_len_facts (tk : Tokenizer) (s : Str) (w n : Nat)
    (hc : capturesAux 0 tk.regex.alts s = some (w, n)) :
    n ≤ s.length ∧ (NonEmptyMatches tk → 0 < n) := by
  obtain ⟨_, _, p, hget, hhead, _⟩ :=
    capturesAux_some_spec tk.regex.alts 0 w n s hc
  have hp : p ∈ tk.regex.alts := List.get?_mem hget
  have hmem : n ∈ pmatches p s := head?_mem hhead
  exact ⟨pmatches_le p s n hmem, fun hne => hne p hp s n hmem⟩

/-- `next` terminates (the fuel bound `source.length < offset + fuel`
suffices) when the composite pattern never matches the empty string:
every accepted match strictly advances the scan cursor. -/
theorem nextF_no_diverge (tk : Tokenizer) (source : Str)
    (hne : NonEmptyMatches tk) :
    ∀ (fuel offset : Nat), source.length < offset + fuel → 0 < fuel →
      nextF tk source fuel offset ≠ .diverge := by
  intro fuel
  induction fuel with
  | zero =>
    intro offset _ h0
    omega
  | succ fuel ih =>
    intro offset hlen _
    by_cases hb : isCharBoundary source offset = true
    case neg =>
      rw [nextF_boundary_false tk source fuel offset hb]
      simp
    case pos =>
      cases hc : capturesAux 0 tk.regex.alts (source.drop offset) with
      | none =>
        rw [nextF_step_nomatch tk source fuel offset hb hc]
        split <;> simp
      | some wn =>
        obtain ⟨w, n⟩ := wn
        match w with
        | 0 =>
          rw [nextF_step_ign tk source fuel offset n hb hc]
          obtain ⟨hn2, hn1⟩ := capturesAux_len_facts tk _ 0 n hc
          have hn1' := hn1 hne
          rw [List.length_drop] at hn2
          have hoff := isCharBoundary_le source offset hb
          exact ih (offset + n) (by omega) (by omega)
        | w' + 1 =>
          cases hty : tk.token_types.get? (w' + 1 - 1) with
          | none =>
            rw [nextF_step_oob tk source fuel offset (w' + 1) n hb hc
              (by omega) hty]
            simp
          | some ty =>
            rw [nextF_step_tok tk source fuel offset (w' + 1) n ty hb hc
              (by omega) hty]
            simp

/-- `tokenize` terminates under the same no-zero-width-match condition. -/
theorem tokenizeF_no_diverge (tk : Tokenizer) (source : Str)
    (hne : NonEmptyMatches tk) :
    ∀ (fuel offset : Nat), source.length < offset + fuel → 0 < fuel →
      tokenizeF tk source fuel offset ≠ .diverge := by
  intro fuel
  induction fuel with
  | zero =>
    intro offset _ h0
    omega
  | succ fuel ih =>
    intro offset hlen _
    simp only [tokenizeF]
    cases hn : nextF tk source (fuel + 1) offset with
    | panic => simp
    | err e => simp
    | none => simp
    | diverge =>
      exact absurd hn (nextF_no_diverge tk source hne (fuel + 1) offset
        (by omega) (by omega))
    | tok t =>
      obtain ⟨hle, hbs, w, n, hw, hc, hty, hval, hstop⟩ :=
        nextF_tok_spec tk source (fuel + 1) offset t hn
      obtain ⟨hn2, hn1⟩ := capturesAux_len_facts tk _ w n hc
      have hn1' := hn1 hne
      rw [List.length_drop] at hn2
      cases hr : tokenizeF tk source fuel t.stop with
      | ok ts => simp [hr]
      | panic => simp [hr]
      | err e => simp [hr]
      | diverge =>
        exact absurd hr (ih t.stop (by omega) (by omega))

/-- `next` never panics when started on a character boundary, provided the
matcher satisfies the engine's boundary guarantee, never matches the empty
string, and has the alternative/token-type layout `new` produces. -/
theorem nextF_no_panic (tk : Tokenizer) (source : Str)
    (hmb : matchBoundariesB tk source = true)
    (hwf : tk.regex.alts.length = tk.token_types.length + 1) :
    ∀ (fuel offset : Nat), isCharBoundary source offset = true →
      nextF tk source fuel offset ≠ .panic := by
  intro fuel
  induction fuel with
  | zero =>
    intro offset _
    simp [nextF]
  | succ fuel ih =>
    intro offset hb
    cases hc : capturesAux 0 tk.regex.alts (source.drop offset) with
    | none =>
      rw [nextF_step_nomatch tk source fuel offset hb hc]
      split <;> simp
    | some wn =>
      obtain ⟨w, n⟩ := wn
      have hoff := isCharBoundary_le source offset hb
      have hb2 : isCharBoundary source (offset + n) = true :=
        matchBoundariesB_spec tk source hmb offset w n hb hoff hc
      match w with
      | 0 =>
        rw [nextF_step_ign tk source fuel offset n hb hc]
        exact ih (offset + n) hb2
      | w' + 1 =>
        have hwlt : w' + 1 < tk.regex.alts.length := by
          have := capturesAux_some_spec tk.regex.alts 0 (w' + 1) n _ hc
          omega
        have httlt : w' < tk.token_types.length := by omega
        cases hty : tk.token_types.get? (w' + 1 - 1) with
        | none =>
          rw [List.get?_eq_none] at hty
          omega
        | some ty =>
          rw [nextF_step_tok tk source fuel offset (w' + 1) n ty hb hc
            (by omega) hty]
          simp

/-- `tokenize` never panics under the same conditions. -/
theorem tokenizeF_no_panic (tk : Tokenizer) (source : Str)
    (hmb : matchBoundariesB tk source = true)
    (hwf : tk.regex.alts.length = tk.token_types.length + 1) :
    ∀ (fuel offset : Nat), isCharBoundary source offset = true →
      tokenizeF tk source fuel offset ≠ .panic := by
  intro fuel
  induction fuel with
  | zero =>
    intro offset _
    simp [tokenizeF]
  | succ fuel ih =>
    intro offset hb
    simp only [tokenizeF]
    cases hn : nextF tk source (fuel + 1) offset with
    | diverge => simp
    | err e => simp
    | none => simp
    | panic =>
      exact absurd hn (nextF_no_panic tk source hmb hwf (fuel + 1) offset hb)
    | tok t =>
      obtain ⟨hle, hbs, w, n, hw, hc, hty, hval, hstop⟩ :=
        nextF_tok_spec tk source (fuel + 1) offset t hn
      have hb2 : isCharBoundary source t.stop = true := by
        rw [hstop]
        exact matchBoundariesB_spec tk source hmb t.start w n hbs
          (isCharBoundary_le source t.start hbs) hc
      cases hr : tokenizeF tk source fuel t.stop with
      | ok ts => simp [hr]
      | diverge => simp [hr]
      | err e => simp [hr]
      | panic => exact absurd hr (ih t.stop hb2)

theorem string_join_cons (a : String) (l : List String) :
    String.join (a :: l) = a ++ String.join l := by
  have key : ∀ (m : List String) (acc : String),
      m.foldl (fun r s => r ++ s) acc =
        acc ++ m.foldl (fun r s => r ++ s) "" := by
    intro m
    induction m with
    | nil =>
      intro acc
      simp only [List.foldl_nil]
      exact (String.append_empty acc).symm
    | cons x rest ih =>
      intro acc
      simp only [List.foldl_cons]
      rw [ih (acc ++ x), ih ("" ++ x), String.empty_append,
        String.append_assoc]
  show (a :: l).foldl (fun r s => r ++ s) "" = a ++ String.join l
  simp only [List.foldl_cons]
  rw [key l ("" ++ a), String.empty_append]
  rfl

theorem isCharBoundary_length (s : Str) : isCharBoundary s s.length = true := by
  unfold isCharBoundary
  split
  · rfl
  · rw [List.get?_eq_none.mpr (Nat.le_refl _)]
    simp

theorem tokenizeF_at_end (tk : Tokenizer) (source : Str) (fuel : Nat)
    (h : ∀ p ∈ tk.regex.alts, pmatches p [] = []) :
    tokenizeF tk source (fuel + 1) source.length = .ok [] := by
  have hcn : capturesAux 0 tk.regex.alts (source.drop source.length) =
      Option.none := by
    rw [List.drop_length]
    exact (capturesAux_eq_none 0 _ _).mpr h
  have hnext : nextF tk source (fuel + 1) source.length = .none := by
    rw [nextF_step_nomatch tk source fuel source.length
      (isCharBoundary_length source) hcn]
    rw [List.drop_length]
    simp
  simp only [tokenizeF, hnext]

theorem tokenizeF_err_from_next (tk : Tokenizer) (source : Str) :
    ∀ (fuel offset : Nat) (e : Error),
      tokenizeF tk source fuel offset = .err e →
      ∃ f2 off2, nextF tk source f2 off2 = .err e := by
  intro fuel
  induction fuel with
  | zero =>
    intro offset e h
    simp [tokenizeF] at h
  | succ fuel ih =>
    intro offset e h
    simp only [tokenizeF] at h
    cases hn : nextF tk source (fuel + 1) offset with
    | panic => rw [hn] at h; simp at h
    | diverge => rw [hn] at h; simp at h
    | none => rw [hn] at h; simp at h
    | err e' =>
      rw [hn] at h
      simp only [TokenizeRes.err.injEq] at h
      subst h
      exact ⟨fuel + 1, offset, hn⟩
    | tok t =>
      simp only [hn] at h
      cases hr : tokenizeF tk source fuel t.stop with
      | ok ts => rw [hr] at h; simp at h
      | panic => rw [hr] at h; simp at h
      | diverge => rw [hr] at h; simp at h
      | err e' =>
        rw [hr] at h
        simp only [TokenizeRes.err.injEq] at h
        rw [← h]
        exact ih t.stop e' hr

theorem tokenizeF_ok_tokens (tk : Tokenizer) (source : Str) :
    ∀ (fuel offset : Nat) (ts : List Token),
      tokenizeF tk source fuel offset = .ok ts →
      ∀ t ∈ ts, ∃ f2 off2, nextF tk source f2 off2 = .tok t := by
  intro fuel
  induction fuel with
  | zero =>
    intro offset ts h
    simp [tokenizeF] at h
  | succ fuel ih =>
    intro offset ts h
    simp only [tokenizeF] at h
    cases hn : nextF tk source (fuel + 1) offset with
    | panic => rw [hn] at h; simp at h
    | diverge => rw [hn] at h; simp at h
    | err e => rw [hn] at h; simp at h
    | none =>
      rw [hn] at h
      simp only [TokenizeRes.ok.injEq] at h
      subst h
      intro t ht
      simp at ht
    | tok t0 =>
      simp only [hn] at h
      cases hr : tokenizeF tk source fuel t0.stop with
      | panic => rw [hr] at h; simp at h
      | diverge => rw [hr] at h; simp at h
      | err e => rw [hr] at h; simp at h
      | ok ts' =>
        rw [hr] at h
        simp only [TokenizeRes.ok.injEq] at h
        subst h
        intro t ht
        rcases List.mem_cons.mp ht with rfl | ht'
        · exact ⟨fuel + 1, offset, hn⟩
        · exact ih t0.stop ts' hr t ht'

theorem NonEmptyMatches_of_neverNullable (tk : Tokenizer)
    (h : ∀ p ∈ tk.regex.alts, neverNullable p = true) :
    NonEmptyMatches tk :=
  fun p hp s n hn => neverNullable_sound p (h p hp) s n hn

theorem exTokenizer_nonEmpty : NonEmptyMatches exTokenizer :=
  NonEmptyMatches_of_neverNullable _ (by decide)

theorem foldl_append_eq_join (g : String → String) :
    ∀ (l : List String) (acc : String),
      l.foldl (fun r t => r ++ g t) acc = acc ++ String.join (l.map g) := by
  intro l
  induction l with
  | nil =>
    intro acc
    simp only [List.foldl_nil, List.map_nil]
    rw [show String.join [] = "" from rfl, String.append_empty]
  | cons x rest ih =>
    intro acc
    simp only [List.foldl_cons, List.map_cons]
    rw [ih (acc ++ g x), string_join_cons, ← String.append_assoc]

/-! ### The claims -/

/-- Claim C1 (exhibit): `Tokenizer::new` does not return a
`ConfigurationError` value when a pattern is invalid — its return type is
`Tokenizer`, not a `Result`, and the `.unwrap()` on the failed
`regex::Regex::new` panics, aborting the process.  With ignore pattern `(`
the assembled composite is `^(?:(())`, whose parentheses do not balance, so
construction panics. -/
theorem c1_new_panics_on_invalid_pattern :
    STokenizer.new "(" [] [] = NewRes.panic := by decide

/-- Claim C2: at any character-boundary offset at which no alternative of
the compiled matcher matches the remaining suffix, `next` returns the
successful "no more tokens" result (`Ok(None)`) when that suffix is empty,
and otherwise fails with a `SyntaxError` reporting the remaining unmatched
text together with the full source — from which the offending offset is
recoverable as `source.length - remaining.length` (the code interpolates
exactly these two strings into the error message). -/
theorem c2_next_unmatched_suffix (tk : Tokenizer) (source : Str)
    (offset fuel : Nat)
    (hb : isCharBoundary source offset = true)
    (hc : ∀ p ∈ tk.regex.alts, pmatches p (source.drop offset) = []) :
    (source.drop offset = [] →
       nextF tk source (fuel + 1) offset = .none) ∧
    (source.drop offset ≠ [] →
       nextF tk source (fuel + 1) offset =
         .err (.SyntaxError source (source.drop offset)) ∧
       source.length - (source.drop offset).length = offset) := by
  have hcn : capturesAux 0 tk.regex.alts (source.drop offset) = Option.none :=
    (capturesAux_eq_none 0 _ _).mpr hc
  have hstep := nextF_step_nomatch tk source fuel offset hb hcn
  constructor
  · intro he
    rw [hstep, if_neg (not_not_intro he)]
  · intro hne
    refine ⟨by rw [hstep, if_pos hne], ?_⟩
    rw [List.length_drop]
    have := isCharBoundary_le source offset hb
    omega

/-- Claim C2 witness: on source `*` (matched by no token type and not by
the ignore pattern) `next` fails with the `SyntaxError` carrying the source
and the remaining text, and on the empty source it returns "no more
tokens". -/
theorem c2_witness :
    nextF exTokenizer (strBytes "*") 5 0 =
      .err (.SyntaxError (strBytes "*") (strBytes "*")) ∧
    nextF exTokenizer ([] : Str) 5 0 = .none := by
  constructor
  · exact ((c2_next_unmatched_suffix exTokenizer (strBytes "*") 0 4
      (by decide) (by decide)).2 (by decide)).1
  · exact (c2_next_unmatched_suffix exTokenizer ([] : Str) 0 4
      (by decide) (by decide)).1 (by decide)

/-- Claim C3: tiling invariant — whenever `tokenize` succeeds, the scanned
spans (every returned token's span and every internally skipped ignore
span, in scan order) tile the region from `start_offset` to the end of the
scan contiguously, with no gap and no overlap (`chainB`); the token spans
among them are exactly the returned tokens' `[start, stop)` spans in
encounter order, and each ignore span is an ignore-winning match of the
composite at its own start offset.  A successful scan always consumes the
source to its end, so the tiled region is `[start_offset, source.length)`,
which is `[start_offset, end_of_last_match)`. -/
theorem c3_tiling (tk : Tokenizer) (source : Str) (fuel start_offset : Nat)
    (ts : List Token)
    (h : tokenizeF tk source fuel start_offset = .ok ts) :
    ∃ spans : List (SpanKind × Nat × Nat),
      chainB start_offset spans source.length = true ∧
      (spans.filter fun x => decide (x.1 = SpanKind.tok)) =
        ts.map (fun t => (SpanKind.tok, t.start, t.stop)) ∧
      (∀ x ∈ spans, x.1 = SpanKind.ign →
        capturesAux 0 tk.regex.alts (source.drop x.2.1) =
          some (0, x.2.2 - x.2.1)) := by
  have h' : (tokenizeI tk source fuel start_offset).2 = .ok ts := by
    rw [tokenizeI_snd tk source fuel start_offset]
    exact h
  exact ⟨(tokenizeI tk source fuel start_offset).1,
    tokenizeI_ok_spec tk source fuel start_offset ts h'⟩

/-- Claim C3 witness: the tiling invariant instantiated on the concrete
scenario of the test suite. -/
theorem c3_witness :
    ∃ spans : List (SpanKind × Nat × Nat),
      chainB 0 spans (strBytes "  +☃1234 abdk ☃").length = true ∧
      (spans.filter fun x => decide (x.1 = SpanKind.tok)) =
        ([⟨strBytes "+", strBytes "+", 2, 3⟩,
          ⟨strBytes "snowman", strBytes "☃", 3, 6⟩,
          ⟨strBytes "number", strBytes "1234", 6, 10⟩,
          ⟨strBytes "identifier", strBytes "abdk", 11, 15⟩,
          ⟨strBytes "snowman", strBytes "☃", 16, 19⟩] :
            List Token).map (fun t => (SpanKind.tok, t.start, t.stop)) ∧
      (∀ x ∈ spans, x.1 = SpanKind.ign →
        capturesAux 0 exTokenizer.regex.alts
          ((strBytes "  +☃1234 abdk ☃").drop x.2.1) =
          some (0, x.2.2 - x.2.1)) :=
  c3_tiling exTokenizer (strBytes "  +☃1234 abdk ☃") 25 0
    [⟨strBytes "+", strBytes "+", 2, 3⟩,
     ⟨strBytes "snowman", strBytes "☃", 3, 6⟩,
     ⟨strBytes "number", strBytes "1234", 6, 10⟩,
     ⟨strBytes "identifier", strBytes "abdk", 11, 15⟩,
     ⟨strBytes "snowman", strBytes "☃", 16, 19⟩] (by decide)

/-- Claim C4: leftmost-first precedence.  For a tokenizer built by `new`,
if the patterns of two configured token types `j < k` both match the
remaining suffix, then: when the ignore pattern does not match, `next`
emits a token whose type is a configured type of index `w ≤ j` — the
earlier-declared type wins, never the later one factor; and when the ignore
pattern does match, the winning alternative is position 0 (the ignore
alternative takes priority over all token types) and `next` consumes the
match and continues instead of emitting a token. -/
theorem c4_precedence (ig : Pat) (pats : List (Str × Pat)) (tts : List Str)
    (source : Str) (offset j k fuel : Nat) (tj tkk : Str)
    (hb : isCharBoundary source offset = true)
    (hj : tts.get? j = some tj) (hk : tts.get? k = some tkk) (hjk : j < k)
    (hmj : pmatches (altPat pats tj) (source.drop offset) ≠ [])
    (hmk : pmatches (altPat pats tkk) (source.drop offset) ≠ []) :
    (pmatches ig (source.drop offset) = [] →
      ∃ w ty n, w ≤ j ∧ tts.get? w = some ty ∧
        nextF (Tokenizer.new ig pats tts) source (fuel + 1) offset =
          .tok ⟨ty, (source.drop offset).take n, offset, offset + n⟩) ∧
    (pmatches ig (source.drop offset) ≠ [] →
      ∃ n, capturesAux 0 (Tokenizer.new ig pats tts).regex.alts
            (source.drop offset) = some (0, n) ∧
        nextF (Tokenizer.new ig pats tts) source (fuel + 1) offset =
          nextF (Tokenizer.new ig pats tts) source fuel (offset + n)) := by
  constructor
  · intro hig
    have hget : (Tokenizer.new ig pats tts).regex.alts.get? (j + 1) =
        some (altPat pats tj) := by
      show (ig :: tts.map (altPat pats)).get? (j + 1) = _
      rw [List.get?_cons_succ, List.get?_map, hj]
      rfl
    obtain ⟨w, n, hcap, hwle⟩ :=
      capturesAux_some_of_mem _ 0 (j + 1) _ _ hget hmj
    have hw1 : 1 ≤ w := by
      by_contra hw0
      have hw0' : w = 0 := by omega
      subst hw0'
      obtain ⟨_, _, p, hp0, hph, _⟩ := capturesAux_some_spec _ 0 0 n _ hcap
      have hp0' : (ig :: tts.map (altPat pats)).get? 0 = some p := hp0
      have hpig : ig = p := by simpa using hp0'
      rw [← hpig, hig] at hph
      simp at hph
    obtain ⟨hklen, _⟩ := List.get?_eq_some.mp hk
    have hwlen : w - 1 < tts.length := by omega
    cases hty : tts.get? (w - 1) with
    | none =>
      rw [List.get?_eq_none] at hty
      omega
    | some ty =>
      refine ⟨w - 1, ty, n, by omega, hty, ?_⟩
      exact nextF_step_tok (Tokenizer.new ig pats tts) source fuel offset
        w n ty hb hcap hw1 hty
  · intro hig
    cases hh : (pmatches ig (source.drop offset)).head? with
    | none => exact absurd (List.head?_eq_none_iff.mp hh) hig
    | some n =>
      have hcap : capturesAux 0 (Tokenizer.new ig pats tts).regex.alts
          (source.drop offset) = some (0, n) := by
        show capturesAux 0 (ig :: tts.map (altPat pats)) _ = _
        simp [capturesAux, hh]
      exact ⟨n, hcap,
        nextF_step_ign (Tokenizer.new ig pats tts) source fuel offset n
          hb hcap⟩

/-- Claim C4 witness: with `id = [a-z]+` declared before the literal type
`ab`, both match at `abc`, and `next` reports the earlier-declared `id`. -/
theorem c4_witness :
    ∃ w ty n, w ≤ 0 ∧ [strBytes "id", strBytes "ab"].get? w = some ty ∧
      nextF precTokenizer (strBytes "abc") 5 0 =
        .tok ⟨ty, ((strBytes "abc").drop 0).take n, 0, 0 + n⟩ :=
  (c4_precedence (.cls 32 32) [(strBytes "id", .plus (.cls 97 122))]
    [strBytes "id", strBytes "ab"] (strBytes "abc") 0 0 1 4
    (strBytes "id") (strBytes "ab") (by decide) (by decide) (by decide)
    (by decide) (by decide) (by decide)).1 (by decide)

/-- Claim C5: composite pattern shape and index mapping.  First, the
assembled expression is the start-anchored alternation `^(?:` followed by
the parenthesised ignore pattern, then, for each token type in configured
order, `|(p)` with `p` its override pattern if present and otherwise its
name with every pattern-special character escaped, then `)`.  Second, at
the matcher level, a match participating in alternative position `w ≥ 1`
is classified as the `w`-th configured token type (`token_types[w - 1]`,
i.e. `token_types[i - 2]` for capture group `i = w + 1`). -/
theorem c5_composite_shape_and_mapping :
    (∀ (ignore : String) (patterns : List (String × String))
       (token_types : List String),
       build_regex_string ignore patterns token_types =
         "^(?:(" ++ ignore ++ ")" ++
           String.join (token_types.map fun t =>
             match lookupStr patterns t with
             | some p => "|(" ++ p ++ ")"
             | Option.none => "|(" ++ regexEscape t ++ ")") ++ ")") ∧
    (∀ (tk : Tokenizer) (source : Str) (offset fuel w n : Nat) (ty : Str),
       isCharBoundary source offset = true →
       capturesAux 0 tk.regex.alts (source.drop offset) = some (w, n) →
       1 ≤ w → tk.token_types.get? (w - 1) = some ty →
       nextF tk source (fuel + 1) offset =
         .tok ⟨ty, (source.drop offset).take n, offset, offset + n⟩) := by
  constructor
  · intro ignore patterns token_types
    have hext : ∀ (acc t : String),
        (match lookupStr patterns t with
         | some p => acc ++ "|(" ++ p ++ ")"
         | Option.none => acc ++ "|(" ++ regexEscape t ++ ")") =
        acc ++ (match lookupStr patterns t with
         | some p => "|(" ++ p ++ ")"
         | Option.none => "|(" ++ regexEscape t ++ ")") := by
      intro acc t
      cases lookupStr patterns t with
      | some p => simp [String.append_assoc]
      | none => simp [String.append_assoc]
    unfold build_regex_string
    rw [List.foldl_ext _
      (fun r t => r ++
        (match lookupStr patterns t with
         | some p => "|(" ++ p ++ ")"
         | Option.none => "|(" ++ regexEscape t ++ ")"))
      _
      (fun acc t _ => hext acc t)]
    rw [foldl_append_eq_join]
    rw [show ("^(?:" ++ "(" : String) = "^(?:(" from by decide]
  · intro tk source offset fuel w n ty hb hc hw hty
    exact nextF_step_tok tk source fuel offset w n ty hb hc hw hty

/-- Claim C5 witness: the shape on the test suite's inputs, and the index
mapping on a concrete digit source (alternative 1 is classified as the
first configured token type, `number`). -/
theorem c5_witness :
    build_regex_string "ign" [] ["abc", "def"] =
      "^(?:(" ++ "ign" ++ ")" ++
        String.join (["abc", "def"].map fun t =>
          match lookupStr [] t with
          | some p => "|(" ++ p ++ ")"
          | Option.none => "|(" ++ regexEscape t ++ ")") ++ ")" ∧
    nextF exTokenizer (strBytes "1") 5 0 =
      .tok ⟨strBytes "number", ((strBytes "1").drop 0).take 1, 0, 0 + 1⟩ :=
  ⟨c5_composite_shape_and_mapping.1 "ign" [] ["abc", "def"],
   c5_composite_shape_and_mapping.2 exTokenizer (strBytes "1") 0 4 1 1
     (strBytes "number") (by decide) (by decide) (by decide) (by decide)⟩

/-- Claim C6: the concrete scenario.  With token types, in order,
`number = [0-9]+`, `identifier = [a-z]+`, the literal `+`, `snowman = ☃`
and ignore `[ ]+`, tokenizing `"  +☃1234 abdk ☃"` from offset 0 yields
exactly the five expected tokens in order, with byte offsets: each snowman
token spans 3 bytes (`end - start = 3`), the UTF-8 length of `☃`, not its
codepoint count of 1. -/
theorem c6_concrete_scenario :
    tokenizeF exTokenizer (strBytes "  +☃1234 abdk ☃") 25 0 =
      .ok [⟨strBytes "+", strBytes "+", 2, 3⟩,
           ⟨strBytes "snowman", strBytes "☃", 3, 6⟩,
           ⟨strBytes "number", strBytes "1234", 6, 10⟩,
           ⟨strBytes "identifier", strBytes "abdk", 11, 15⟩,
           ⟨strBytes "snowman", strBytes "☃", 16, 19⟩] := by
  decide

/-- Claim C7: fail-fast with empty-input success.  An error from `next` is
propagated by `tokenize` as the bare error, discarding any tokens already
collected (first conjunct: one collected token `t` is dropped; the `err`
result carries no token list at all); every error `tokenize` returns
originates from `next` unmodified; `tokenize(source, len(source))` and
`tokenize("", 0)` succeed with the empty token sequence (given that no
alternative matches the empty suffix — a zero-width-matching composite
instead loops, see C8); and the concrete all-ignorable and
discarded-tokens scenarios behave as claimed. -/
theorem c7_failfast_and_empty :
    (∀ (tk : Tokenizer) (source : Str) (fuel offset : Nat) (t : Token)
       (e : Error),
       nextF tk source (fuel + 1) offset = .tok t →
       tokenizeF tk source fuel t.stop = .err e →
       tokenizeF tk source (fuel + 1) offset = .err e) ∧
    (∀ (tk : Tokenizer) (source : Str) (fuel offset : Nat) (e : Error),
       tokenizeF tk source fuel offset = .err e →
       ∃ f2 off2, nextF tk source f2 off2 = .err e) ∧
    (∀ (tk : Tokenizer) (source : Str) (fuel : Nat),
       (∀ p ∈ tk.regex.alts, pmatches p [] = []) →
       tokenizeF tk source (fuel + 1) source.length = .ok []) ∧
    (∀ (tk : Tokenizer) (fuel : Nat),
       (∀ p ∈ tk.regex.alts, pmatches p [] = []) →
       tokenizeF tk ([] : Str) (fuel + 1) 0 = .ok []) ∧
    tokenizeF exTokenizer (strBytes "   ") 10 0 = .ok [] ∧
    tokenizeF exTokenizer (strBytes "abc !!!!") 20 0 =
      .err (.SyntaxError (strBytes "abc !!!!") (strBytes "!!!!")) := by
  refine ⟨?_, ?_, ?_, ?_, by decide, by decide⟩
  · intro tk source fuel offset t e h1 h2
    simp only [tokenizeF, h1, h2]
  · intro tk source fuel offset e h
    exact tokenizeF_err_from_next tk source fuel offset e h
  · intro tk source fuel h
    exact tokenizeF_at_end tk source fuel h
  · intro tk fuel h
    have := tokenizeF_at_end tk [] fuel h
    simpa using this

/-- Claim C7 witness: starting at the end of a source, and on the empty
source, `tokenize` returns the empty token sequence. -/
theorem c7_witness :
    tokenizeF exTokenizer (strBytes "abc") 6 (strBytes "abc").length =
      .ok [] ∧
    tokenizeF exTokenizer ([] : Str) 6 0 = .ok [] :=
  ⟨c7_failfast_and_empty.2.2.1 exTokenizer (strBytes "abc") 5 (by decide),
   c7_failfast_and_empty.2.2.2.1 exTokenizer 5 (by decide)⟩

/-- Claim C8: termination under non-zero-width patterns.  When no
alternative of the compiled matcher matches the empty string, `next` and
`tokenize` terminate within fuel `source.length + 1 - offset` (never report
fuel exhaustion), because every accepted match strictly advances the scan
cursor (`offset < t.stop`); conversely, with the zero-width ignore pattern
(empty-string pattern, `Pat.eps`) the scan loop stalls and both `next` and
`tokenize` exhaust every fuel bound — genuine non-termination — while
construction does not reject such a pattern (the empty ignore pattern
compiles successfully). -/
theorem c8_zero_width_termination :
    (∀ (tk : Tokenizer) (source : Str) (fuel offset : Nat),
       NonEmptyMatches tk → source.length < offset + fuel → 0 < fuel →
       nextF tk source fuel offset ≠ .diverge ∧
       tokenizeF tk source fuel offset ≠ .diverge) ∧
    (∀ (tk : Tokenizer) (source : Str) (fuel offset : Nat) (t : Token),
       NonEmptyMatches tk → nextF tk source fuel offset = .tok t →
       offset < t.stop) ∧
    (∀ fuel : Nat, nextF zwTokenizer [] fuel 0 = .diverge ∧
       tokenizeF zwTokenizer [] fuel 0 = .diverge) ∧
    STokenizer.new "" [] [] = NewRes.ok [] "^(?:())" := by
  refine ⟨?_, ?_, ?_, by decide⟩
  · intro tk source fuel offset hne h1 h2
    exact ⟨nextF_no_diverge tk source hne fuel offset h1 h2,
           tokenizeF_no_diverge tk source hne fuel offset h1 h2⟩
  · intro tk source fuel offset t hne ht
    obtain ⟨hle, _, w, n, _, hc, _, _, hstop⟩ :=
      nextF_tok_spec tk source fuel offset t ht
    obtain ⟨_, hpos⟩ := capturesAux_len_facts tk _ w n hc
    have := hpos hne
    omega
  · intro fuel
    induction fuel with
    | zero => exact ⟨rfl, rfl⟩
    | succ fuel ih =>
      have hn : nextF zwTokenizer [] (fuel + 1) 0 = .diverge := by
        rw [nextF_step_ign zwTokenizer [] fuel 0 0 (by decide) (by decide)]
        exact ih.1
      refine ⟨hn, ?_⟩
      simp only [tokenizeF, hn]

/-- Claim C8 witness: the termination bound applied to the concrete
test-suite tokenizer (whose patterns never match the empty string). -/
theorem c8_witness :
    nextF exTokenizer (strBytes "abc") 4 0 ≠ .diverge ∧
    tokenizeF exTokenizer (strBytes "abc") 4 0 ≠ .diverge :=
  c8_zero_width_termination.1 exTokenizer (strBytes "abc") 4 0
    exTokenizer_nonEmpty (by decide) (by decide)

/-- Claim C9: every token emitted by `next` (and hence every token in a
successful `tokenize` result) has `value` equal to the slice
`source[start..stop)` of the source it was scanned from: the capturing
group wraps the whole winning alternative and the match is anchored, so
the captured text coincides with the full match span. -/
theorem c9_token_value_eq_slice :
    (∀ (tk : Tokenizer) (source : Str) (fuel offset : Nat) (t : Token),
       nextF tk source fuel offset = .tok t →
       t.value = (source.drop t.start).take (t.stop - t.start)) ∧
    (∀ (tk : Tokenizer) (source : Str) (fuel offset : Nat) (ts : List Token),
       tokenizeF tk source fuel offset = .ok ts →
       ∀ t ∈ ts, t.value = (source.drop t.start).take (t.stop - t.start)) := by
  have hnext : ∀ (tk : Tokenizer) (source : Str) (fuel offset : Nat)
      (t : Token), nextF tk source fuel offset = .tok t →
      t.value = (source.drop t.start).take (t.stop - t.start) := by
    intro tk source fuel offset t h
    obtain ⟨_, _, w, n, _, _, _, hval, hstop⟩ :=
      nextF_tok_spec tk source fuel offset t h
    rw [hval, hstop]
    congr 1
    omega
  refine ⟨hnext, ?_⟩
  intro tk source fuel offset ts h t ht
  obtain ⟨f2, off2, hn⟩ := tokenizeF_ok_tokens tk source fuel offset ts h t ht
  exact hnext tk source f2 off2 t hn

/-- Claim C9 witness: the first token of the concrete scenario has value
equal to the byte slice `source[2..3)`. -/
theorem c9_witness :
    (Token.mk (strBytes "+") (strBytes "+") 2 3).value =
      ((strBytes "  +☃1234 abdk ☃").drop 2).take (3 - 2) :=
  c9_token_value_eq_slice.1 exTokenizer (strBytes "  +☃1234 abdk ☃") 25 0
    ⟨strBytes "+", strBytes "+", 2, 3⟩ (by decide)

/-- Claim C10: `next` (and `tokenize`) is partial at the public interface.
For every offset at most the source length lying on a UTF-8 character
boundary, the call returns an `Ok`/`Err` result without panicking (given
the engine's boundary guarantee, the `new`-produced alternative layout,
and no zero-width matches — without which it would not return at all, see
C8); but when the offset exceeds the source length, or falls inside a
multi-byte character (here inside `☃`), the string slicing panics instead
of producing a `SyntaxError` or "no more tokens". -/
theorem c10_slicing_panics :
    (∀ (tk : Tokenizer) (source : Str) (fuel offset : Nat),
       NonEmptyMatches tk → matchBoundariesB tk source = true →
       tk.regex.alts.length = tk.token_types.length + 1 →
       isCharBoundary source offset = true →
       source.length < offset + fuel → 0 < fuel →
       nextF tk source fuel offset ≠ .panic ∧
       nextF tk source fuel offset ≠ .diverge ∧
       tokenizeF tk source fuel offset ≠ .panic ∧
       tokenizeF tk source fuel offset ≠ .diverge) ∧
    nextF exTokenizer (strBytes "abc") 5 5 = .panic ∧
    nextF exTokenizer (strBytes "☃") 5 1 = .panic ∧
    tokenizeF exTokenizer (strBytes "abc") 5 5 = .panic := by
  refine ⟨?_, by decide, by decide, by decide⟩
  intro tk source fuel offset hne hmb hwf hb h1 h2
  exact ⟨nextF_no_panic tk source hmb hwf fuel offset hb,
         nextF_no_diverge tk source hne fuel offset h1 h2,
         tokenizeF_no_panic tk source hmb hwf fuel offset hb,
         tokenizeF_no_diverge tk source hne fuel offset h1 h2⟩

/-- Claim C10 witness: at the in-bounds boundary offset 0 of `☃`, `next`
and `tokenize` neither panic nor hang. -/
theorem c10_witness :
    nextF exTokenizer (strBytes "☃") 4 0 ≠ .panic ∧
    nextF exTokenizer (strBytes "☃") 4 0 ≠ .diverge ∧
    tokenizeF exTokenizer (strBytes "☃") 4 0 ≠ .panic ∧
    tokenizeF exTokenizer (strBytes "☃") 4 0 ≠ .diverge :=
  c10_slicing_panics.1 exTokenizer (strBytes "☃") 4 0 exTokenizer_nonEmpty
    (by decide) (by decide) (by decide) (by decide) (by decide)

end JE
